import Mathlib

/-!
# A model of the `LRUCache` of `src/cache.rs`

This file embeds the LRU cache of `src/cache.rs` (the `dhatch/cache-rust`
repository) into Lean and proves / refutes the specification's claims about it.

Embedding conventions:

* A `CacheValue` (the Rust struct of the same name) carries its `key` and
  `value` fields.  The Rust code shares one `Rc<CacheValue>` between the hash
  map and the intrusive linked list; pointer identity of that allocation is
  modelled by the extra `id : Nat` field, stamped from a counter (`nextId`)
  when the node is allocated at the top of `put`.  Nodes are never mutated
  after allocation in the Rust code, so a node is faithfully represented by
  its field values plus its allocation identity.
* The `HashMap<K, Rc<CacheValue>>` field `map` is modelled as an association
  list with unique keys; `mapGet` / `mapInsert` / `mapRemove` model
  `HashMap::get` / `insert` / `remove`.
* The intrusive `LinkedList` field `lru_list` is a `List` of nodes, head =
  front of the list.  `cursor_mut_from_ptr` followed by `cursor.remove()` is
  modelled by `listRemoveId`, which removes the node with the given
  allocation identity.
* A Rust `panic!` / `expect` / `unreachable!` is modelled by `Except.error`
  carrying the panic message; normal completion is `Except.ok`.
* Where the source instead documents *undefined behavior* — creating an
  intrusive-list cursor from a node that is not linked into `lru_list`
  (`touch`'s safety comment, `src/cache.rs` lines 182–185) — the model has no
  semantics to embed.  Totality forces those branches to return something;
  they return a placeholder `Except.error` marked `UB`, and no theorem in
  this file relies on the value of such a branch: every theorem about an
  operation that splices a node out of the list first establishes (or
  assumes) that the node is linked in. -/

structure CacheValue (K V : Type) where
  id : Nat
  key : K
  value : V
deriving DecidableEq

structure LRUCacheData (K V : Type) where
  map : List (K × CacheValue K V)
  lru_list : List (CacheValue K V)
  nextId : Nat
deriving DecidableEq

structure LRUCache (K V : Type) where
  data : LRUCacheData K V
  capacity : Nat
deriving DecidableEq

variable {K V : Type} [DecidableEq K]

/-- Model of `HashMap::get`: the value bound to `k`, if any. -/
def mapGet (m : List (K × CacheValue K V)) (k : K) : Option (CacheValue K V) :=
  match m with
  | [] => none
  | (k', v) :: rest => if k' = k then some v else mapGet rest k

/-- Model of `HashMap::insert`: bind `k` to `v`, replacing any existing
binding in place. -/
def mapInsert (m : List (K × CacheValue K V)) (k : K) (v : CacheValue K V) :
    List (K × CacheValue K V) :=
  match m with
  | [] => [(k, v)]
  | (k', v') :: rest =>
    if k' = k then (k, v) :: rest else (k', v') :: mapInsert rest k v

/-- Model of `HashMap::remove`: drop the binding of `k`, if present. -/
def mapRemove (m : List (K × CacheValue K V)) (k : K) :
    List (K × CacheValue K V) :=
  match m with
  | [] => []
  | (k', v') :: rest => if k' = k then rest else (k', v') :: mapRemove rest k

/-- Model of `cursor_mut_from_ptr` + `cursor.remove()` on the intrusive list:
remove the node with allocation identity `i`, returning it and the remaining
list.  If no such node is linked in, the first component is `none` (the Rust
code treats that situation as a hard failure at every call site). -/
def listRemoveId (l : List (CacheValue K V)) (i : Nat) :
    Option (CacheValue K V) × List (CacheValue K V) :=
  match l with
  | [] => (none, [])
  | n :: rest =>
    if n.id = i then (some n, rest)
    else
      let r := listRemoveId rest i
      (r.1, n :: r.2)

namespace LRUCache

/-- `LRUCache::new(capacity)` (`src/cache.rs` lines 89–97): empty map, empty
recency list. -/
def new (K V : Type) (capacity : Nat) : LRUCache K V :=
  { data := { map := [], lru_list := [], nextId := 0 }, capacity := capacity }

/-- `LRUCache::touch` (`src/cache.rs` lines 186–199): splice the node out of
`lru_list` by pointer (`cursor_mut_from_ptr` + `remove`) and push it back on
the front.  When the node is not linked into `lru_list`, the source's own
safety comment (lines 182–185) declares the behaviour undefined — the model
returns a placeholder error for that case, which no theorem relies on; every
caller proved about below establishes membership first. -/
def touch (d : LRUCacheData K V) (cache_value : CacheValue K V) :
    Except String (LRUCacheData K V) :=
  match listRemoveId d.lru_list cache_value.id with
  | (some removed_value, rest) =>
    .ok { d with lru_list := removed_value :: rest }
  | (none, _) => .error "UB: cursor_mut_from_ptr on a node not in lru_list"

/-- `LRUCache::get` (`src/cache.rs` lines 109–118): look the key up in `map`;
on a hit, `touch` the node and return a clone of its value; on a miss return
`None`. -/
def get (c : LRUCache K V) (k : K) :
    Except String (Option V × LRUCache K V) :=
  match mapGet c.data.map k with
  | none => .ok (none, c)
  | some cache_value =>
    match touch c.data cache_value with
    | .error e => .error e
    | .ok d => .ok (some cache_value.value, { c with data := d })

/-- `LRUCache::evict_lru` (`src/cache.rs` lines 211–217): `pop_front` the
recency list (panicking via `expect("List must not be none")` when it is
empty) and remove the popped node's key from `map` (hitting `unreachable!()`
when the key is absent).  Note the code pops the *front* — the same end
`put` and `touch` push to. -/
def evict_lru (c : LRUCache K V) : Except String (LRUCache K V) :=
  match c.data.lru_list with
  | [] => .error "List must not be none"
  | lru_value :: rest =>
    match mapGet c.data.map lru_value.key with
    | none => .error "unreachable"
    | some _ =>
      .ok { c with data := { c.data with
              map := mapRemove c.data.map lru_value.key,
              lru_list := rest } }

/-- `LRUCache::make_room` (`src/cache.rs` lines 202–208): evict exactly when
the map holds `capacity` entries. -/
def make_room (c : LRUCache K V) : Except String (LRUCache K V) :=
  if c.data.map.length = c.capacity then evict_lru c else .ok c

/-- `LRUCache::put` (`src/cache.rs` lines 125–176): allocate the node, make
room when the key is new, insert into `map` (replacing and returning any old
binding, whose node is spliced out of `lru_list` by pointer), then push the
new node on the front of `lru_list`. -/
def put (c : LRUCache K V) (k : K) (v : V) :
    Except String (Option V × LRUCache K V) :=
  let cache_value : CacheValue K V := ⟨c.data.nextId, k, v⟩
  let step1 : Except String (LRUCache K V) :=
    if (mapGet c.data.map k).isNone then make_room c else .ok c
  match step1 with
  | .error e => .error e
  | .ok c1 =>
    match mapGet c1.data.map k with
    | none =>
      .ok (none,
        { capacity := c1.capacity,
          data := { map := mapInsert c1.data.map k cache_value,
                    lru_list := cache_value :: c1.data.lru_list,
                    nextId := c.data.nextId + 1 } })
    | some old_cv =>
      match listRemoveId c1.data.lru_list old_cv.id with
      | (some removed, rest) =>
        .ok (some removed.value,
          { capacity := c1.capacity,
            data := { map := mapInsert c1.data.map k cache_value,
                      lru_list := cache_value :: rest,
                      nextId := c.data.nextId + 1 } })
      | (none, _) => .error "Unexpected error"

end LRUCache

/-- States reachable from `LRUCache::new` by successful `get` / `put` calls. -/
inductive Reachable : LRUCache K V → Prop where
  | new (capacity : Nat) : Reachable (LRUCache.new K V capacity)
  | get (c c' : LRUCache K V) (k : K) (r : Option V) :
      Reachable c → LRUCache.get c k = .ok (r, c') → Reachable c'
  | put (c c' : LRUCache K V) (k : K) (v : V) (r : Option V) :
      Reachable c → LRUCache.put c k v = .ok (r, c') → Reachable c'

/-- The structural invariant tying `map` and `lru_list` together. -/
structure CacheInv (c : LRUCache K V) : Prop where
  keys_nodup : (c.data.map.map Prod.fst).Nodup
  ids_nodup : (c.data.lru_list.map CacheValue.id).Nodup
  map_to_list : ∀ p ∈ c.data.map, p.2 ∈ c.data.lru_list ∧ p.2.key = p.1
  list_to_map : ∀ cv ∈ c.data.lru_list, mapGet c.data.map cv.key = some cv
  len_eq : c.data.map.length = c.data.lru_list.length
  len_le : c.data.map.length ≤ c.capacity
  ids_lt : ∀ cv ∈ c.data.lru_list, cv.id < c.data.nextId

instance {ε α : Type} [DecidableEq ε] [DecidableEq α] : DecidableEq (Except ε α) :=
  fun x y =>
    match x, y with
    | .ok a, .ok b =>
      if h : a = b then .isTrue (by rw [h])
      else .isFalse (by intro hc; cases hc; exact h rfl)
    | .error a, .error b =>
      if h : a = b then .isTrue (by rw [h])
      else .isFalse (by intro hc; cases hc; exact h rfl)
    | .ok _, .error _ => .isFalse (by intro hc; cases hc)
    | .error _, .ok _ => .isFalse (by intro hc; cases hc)

/-- Scenario B of the spec, run against the code: capacity 2, `put(1,1)`;
`put(2,2)`; `get(1)`; `put(3,3)`; then observe `get(2)`, `get(1)`, `get(3)`.
Returns `(result of the first get 1, get 2, get 1, get 3)`. -/
def scenarioB : Except String (Option Nat × Option Nat × Option Nat × Option Nat) := do
  let c := LRUCache.new Nat Nat 2
  let (_, c) ← LRUCache.put c 1 1
  let (_, c) ← LRUCache.put c 2 2
  let (r1, c) ← LRUCache.get c 1
  let (_, c) ← LRUCache.put c 3 3
  let (g2, c) ← LRUCache.get c 2
  let (g1, c) ← LRUCache.get c 1
  let (g3, _) ← LRUCache.get c 3
  return (r1, g2, g1, g3)

/-!
## Critical-section structure of `get` and `put`

The spec demands that every operation perform its whole index+order mutation
inside one exclusive critical section.  The model below records, straight from
the source text of `src/cache.rs`, the sequence of mutex events and
state-observing / state-mutating actions each operation performs, per control
path.  `acquire` / `release` are `self.data.lock()` and the guard being
dropped (explicitly via `mem::drop` or at scope end); accesses through
`self.data.get_mut()` take no lock and so appear with no surrounding
`acquire` / `release`.
-/

inductive LockEvent where
  | acquire
  | release
  | lookupKey
  | checkContains
  | checkCapacity
  | mutateTouch
  | mutateEvict
  | mutateInsert
deriving DecidableEq

/-- Event trace of `LRUCache::get` (`src/cache.rs` lines 109–118): lock
(line 110), look the key up (111), on a hit touch the node (114), release on
return. -/
def getEvents (hit : Bool) : List LockEvent :=
  [.acquire, .lookupKey] ++ (if hit then [.mutateTouch] else []) ++ [.release]

/-- Event trace of `LRUCache::put` (`src/cache.rs` lines 125–176 with
`make_room` 202–208 and `evict_lru` 211–217): lock (133), containment check
(134), guard dropped (135 or scope end 138); when the key is new, `make_room`
locks again (203), checks the size (204), drops the guard (205), and
`evict_lru` mutates through `get_mut` (212–216) with no lock held; finally the
insertion and list push (140–173) also run through `get_mut` with no lock
held. -/
def putEvents (keyAbsent full : Bool) : List LockEvent :=
  [.acquire, .checkContains, .release] ++
    (if keyAbsent then
      [.acquire, .checkCapacity, .release] ++ (if full then [.mutateEvict] else [])
    else []) ++
    [.mutateInsert]

/-- The observing / mutating events of a trace that happen while no mutex
guard is held. -/
def eventsOutsideLock (held : Bool) : List LockEvent → List LockEvent
  | [] => []
  | .acquire :: rest => eventsOutsideLock true rest
  | .release :: rest => eventsOutsideLock false rest
  | e :: rest =>
    (if held then [] else [e]) ++ eventsOutsideLock held rest

/-- A trace runs as one exclusive critical section: a single mutex
acquisition, and every observation / mutation made while the guard is held. -/
def singleCriticalSection (tr : List LockEvent) : Bool :=
  tr.count .acquire == 1 && (eventsOutsideLock false tr).isEmpty

/-! ## Association-list lemmas (model of the `HashMap`) -/

theorem mapGet_eq_none_iff (m : List (K × CacheValue K V)) (k : K) :
    mapGet m k = none ↔ k ∉ m.map Prod.fst := by
  induction m with
  | nil => simp [mapGet]
  | cons p rest ih =>
    obtain ⟨k', v⟩ := p
    by_cases h : k' = k
    · subst h
      simp [mapGet]
    · simp [mapGet, h, ih, Ne.symm h]

theorem mapGet_mem {m : List (K × CacheValue K V)} {k : K} {b : CacheValue K V}
    (h : mapGet m k = some b) : (k, b) ∈ m := by
  induction m with
  | nil => simp [mapGet] at h
  | cons p rest ih =>
    obtain ⟨k', v⟩ := p
    by_cases hk : k' = k
    · subst hk
      simp [mapGet] at h
      simp [h]
    · simp [mapGet, hk] at h
      simp [ih h]

theorem mapGet_ne_none_of_mem {m : List (K × CacheValue K V)} {k : K}
    {b : CacheValue K V} (h : (k, b) ∈ m) : mapGet m k ≠ none := by
  intro hn
  rw [mapGet_eq_none_iff] at hn
  exact hn (List.mem_map.mpr ⟨(k, b), h, rfl⟩)

theorem mapGet_of_mem_nodup {m : List (K × CacheValue K V)}
    (hnd : (m.map Prod.fst).Nodup) {p : K × CacheValue K V} (h : p ∈ m) :
    mapGet m p.1 = some p.2 := by
  induction m with
  | nil => simp at h
  | cons q rest ih =>
    obtain ⟨k', v⟩ := q
    simp only [List.map_cons, List.nodup_cons] at hnd
    rcases List.mem_cons.mp h with h | h
    · subst h
      simp [mapGet]
    · have hne : k' ≠ p.1 := by
        intro he
        exact hnd.1 (he ▸ List.mem_map.mpr ⟨p, h, rfl⟩)
      simp [mapGet, hne, ih hnd.2 h]

theorem mapGet_mapInsert_self (m : List (K × CacheValue K V)) (k : K)
    (b : CacheValue K V) : mapGet (mapInsert m k b) k = some b := by
  induction m with
  | nil => simp [mapInsert, mapGet]
  | cons p rest ih =>
    obtain ⟨k', v⟩ := p
    by_cases h : k' = k
    · simp [mapInsert, h, mapGet]
    · simp [mapInsert, h, mapGet, ih]

theorem mapGet_mapInsert_ne (m : List (K × CacheValue K V)) {k k' : K}
    (b : CacheValue K V) (h : k' ≠ k) :
    mapGet (mapInsert m k b) k' = mapGet m k' := by
  induction m with
  | nil => simp [mapInsert, mapGet, Ne.symm h]
  | cons p rest ih =>
    obtain ⟨k'', v⟩ := p
    by_cases hk : k'' = k
    · subst hk
      simp [mapInsert, mapGet, Ne.symm h]
    · by_cases hk' : k'' = k'
      · subst hk'
        simp [mapInsert, hk, mapGet]
      · simp [mapInsert, hk, mapGet, hk', ih]

theorem keys_mapInsert_of_none {m : List (K × CacheValue K V)} {k : K}
    (b : CacheValue K V) (h : mapGet m k = none) :
    (mapInsert m k b).map Prod.fst = m.map Prod.fst ++ [k] := by
  induction m with
  | nil => simp [mapInsert]
  | cons p rest ih =>
    obtain ⟨k', v⟩ := p
    by_cases hk : k' = k
    · subst hk
      simp [mapGet] at h
    · simp only [mapGet, if_neg hk] at h
      simp [mapInsert, hk, ih h]

theorem keys_mapInsert_of_some {m : List (K × CacheValue K V)} {k : K}
    {b₀ : CacheValue K V} (b : CacheValue K V) (h : mapGet m k = some b₀) :
    (mapInsert m k b).map Prod.fst = m.map Prod.fst := by
  induction m with
  | nil => simp [mapGet] at h
  | cons p rest ih =>
    obtain ⟨k', v⟩ := p
    by_cases hk : k' = k
    · subst hk
      simp [mapInsert]
    · simp only [mapGet, if_neg hk] at h
      simp [mapInsert, hk, ih h]

theorem length_mapInsert_of_none {m : List (K × CacheValue K V)} {k : K}
    (b : CacheValue K V) (h : mapGet m k = none) :
    (mapInsert m k b).length = m.length + 1 := by
  have := congrArg List.length (keys_mapInsert_of_none b h)
  simpa using this

theorem length_mapInsert_of_some {m : List (K × CacheValue K V)} {k : K}
    {b₀ : CacheValue K V} (b : CacheValue K V) (h : mapGet m k = some b₀) :
    (mapInsert m k b).length = m.length := by
  have := congrArg List.length (keys_mapInsert_of_some b h)
  simpa using this

theorem mem_mapInsert {m : List (K × CacheValue K V)} {k : K}
    {b : CacheValue K V} {p : K × CacheValue K V} (h : p ∈ mapInsert m k b) :
    p = (k, b) ∨ p ∈ m := by
  induction m with
  | nil => simpa [mapInsert] using h
  | cons q rest ih =>
    obtain ⟨k', v⟩ := q
    by_cases hk : k' = k
    · simp only [mapInsert, if_pos hk] at h
      rcases List.mem_cons.mp h with h | h
      · exact Or.inl h
      · exact Or.inr (List.mem_cons.mpr (Or.inr h))
    · simp only [mapInsert, if_neg hk] at h
      rcases List.mem_cons.mp h with h | h
      · exact Or.inr (List.mem_cons.mpr (Or.inl h))
      · rcases ih h with h | h
        · exact Or.inl h
        · exact Or.inr (List.mem_cons.mpr (Or.inr h))

theorem mem_mapInsert_nodup {m : List (K × CacheValue K V)}
    (hnd : (m.map Prod.fst).Nodup) {k : K} {b : CacheValue K V}
    {p : K × CacheValue K V} (h : p ∈ mapInsert m k b) :
    p = (k, b) ∨ (p ∈ m ∧ p.1 ≠ k) := by
  induction m with
  | nil => simpa [mapInsert] using h
  | cons q rest ih =>
    obtain ⟨k', v⟩ := q
    simp only [List.map_cons, List.nodup_cons] at hnd
    by_cases hk : k' = k
    · subst hk
      simp only [mapInsert, if_pos rfl] at h
      rcases List.mem_cons.mp h with h | h
      · exact Or.inl h
      · refine Or.inr ⟨List.mem_cons.mpr (Or.inr h), ?_⟩
        intro he
        exact hnd.1 (he ▸ List.mem_map.mpr ⟨p, h, rfl⟩)
    · simp only [mapInsert, if_neg hk] at h
      rcases List.mem_cons.mp h with h | h
      · subst h
        exact Or.inr ⟨List.mem_cons.mpr (Or.inl rfl), hk⟩
      · rcases ih hnd.2 h with h | h
        · exact Or.inl h
        · exact Or.inr ⟨List.mem_cons.mpr (Or.inr h.1), h.2⟩

theorem mapRemove_sublist (m : List (K × CacheValue K V)) (k : K) :
    (mapRemove m k).Sublist m := by
  induction m with
  | nil => simp [mapRemove]
  | cons p rest ih =>
    obtain ⟨k', v⟩ := p
    by_cases hk : k' = k
    · simpa [mapRemove, hk] using List.sublist_cons_self (k', v) rest
    · simpa [mapRemove, hk] using ih.cons₂ (k', v)

theorem length_mapRemove {m : List (K × CacheValue K V)} {k : K}
    {b : CacheValue K V} (h : mapGet m k = some b) :
    (mapRemove m k).length + 1 = m.length := by
  induction m with
  | nil => simp [mapGet] at h
  | cons p rest ih =>
    obtain ⟨k', v⟩ := p
    by_cases hk : k' = k
    · simp [mapRemove, hk]
    · simp only [mapGet, if_neg hk] at h
      simp [mapRemove, hk, ih h]

theorem mapGet_mapRemove_self {m : List (K × CacheValue K V)}
    (hnd : (m.map Prod.fst).Nodup) (k : K) :
    mapGet (mapRemove m k) k = none := by
  induction m with
  | nil => simp [mapRemove, mapGet]
  | cons p rest ih =>
    obtain ⟨k', v⟩ := p
    simp only [List.map_cons, List.nodup_cons] at hnd
    by_cases hk : k' = k
    · subst hk
      simp only [mapRemove, if_pos rfl]
      rw [mapGet_eq_none_iff]
      exact hnd.1
    · simp [mapRemove, hk, mapGet, ih hnd.2]

theorem mapGet_mapRemove_ne (m : List (K × CacheValue K V)) {k k' : K}
    (h : k' ≠ k) : mapGet (mapRemove m k) k' = mapGet m k' := by
  induction m with
  | nil => simp [mapRemove]
  | cons p rest ih =>
    obtain ⟨k'', v⟩ := p
    by_cases hk : k'' = k
    · subst hk
      simp [mapRemove, mapGet, Ne.symm h]
    · by_cases hk' : k'' = k'
      · subst hk'
        simp [mapRemove, hk, mapGet]
      · simp [mapRemove, hk, mapGet, hk', ih]

theorem mapGet_mapRemove_none {m : List (K × CacheValue K V)} {k k' : K}
    (h : mapGet m k' = none) : mapGet (mapRemove m k) k' = none := by
  cases hr : mapGet (mapRemove m k) k' with
  | none => rfl
  | some b =>
    exact absurd h (mapGet_ne_none_of_mem ((mapRemove_sublist m k).subset (mapGet_mem hr)))

/-! ## Intrusive-list lemmas -/

theorem listRemoveId_eq_some {l : List (CacheValue K V)} {i : Nat}
    {cv : CacheValue K V} {rest : List (CacheValue K V)}
    (h : listRemoveId l i = (some cv, rest)) :
    cv.id = i ∧ ∃ l1 l2, l = l1 ++ cv :: l2 ∧ rest = l1 ++ l2 ∧
      ∀ x ∈ l1, x.id ≠ i := by
  induction l generalizing rest with
  | nil => simp [listRemoveId] at h
  | cons n tail ih =>
    by_cases hid : n.id = i
    · simp only [listRemoveId, if_pos hid] at h
      injection h with h1 h2
      injection h1 with h1
      subst h2
      subst h1
      exact ⟨hid, [], tail, rfl, rfl, by simp⟩
    · cases hrec : listRemoveId tail i with
      | mk fst snd =>
        simp only [listRemoveId, if_neg hid, hrec] at h
        injection h with h1 h2
        subst h1
        obtain ⟨hcv, l1, l2, htail, hrest, hl1⟩ := ih hrec
        refine ⟨hcv, n :: l1, l2, by simp [htail], ?_, ?_⟩
        · simp [← h2, hrest]
        · intro x hx
          rcases List.mem_cons.mp hx with hx | hx
          · exact hx ▸ hid
          · exact hl1 x hx

theorem listRemoveId_of_mem {l : List (CacheValue K V)} {cv : CacheValue K V}
    (h : cv ∈ l) : ∃ cv' rest, listRemoveId l cv.id = (some cv', rest) := by
  induction l with
  | nil => simp at h
  | cons n tail ih =>
    by_cases hid : n.id = cv.id
    · exact ⟨n, tail, by simp [listRemoveId, hid]⟩
    · have hcv : cv ∈ tail := by
        rcases List.mem_cons.mp h with h | h
        · exact absurd (h ▸ rfl) (Ne.symm hid)
        · exact h
      obtain ⟨cv', rest, hrec⟩ := ih hcv
      exact ⟨cv', n :: rest, by simp [listRemoveId, hid, hrec]⟩

theorem eq_of_mem_of_id_eq {l : List (CacheValue K V)}
    (hnd : (l.map CacheValue.id).Nodup) {a b : CacheValue K V}
    (ha : a ∈ l) (hb : b ∈ l) (h : a.id = b.id) : a = b :=
  List.inj_on_of_nodup_map hnd ha hb h

theorem nodup_middle_map {α β : Type} {f : α → β} {l1 l2 : List α} {a : α}
    (hnd : ((l1 ++ a :: l2).map f).Nodup) :
    f a ∉ (l1 ++ l2).map f ∧ ((l1 ++ l2).map f).Nodup := by
  have hperm : ((l1 ++ a :: l2).map f).Perm ((a :: (l1 ++ l2)).map f) :=
    List.Perm.map f List.perm_middle
  have := hperm.nodup_iff.mp hnd
  simpa [List.nodup_cons] using this

/-! ## Behaviour of the operations -/

theorem touch_spec {d : LRUCacheData K V} {cv : CacheValue K V}
    (hnd : (d.lru_list.map CacheValue.id).Nodup) (hcv : cv ∈ d.lru_list) :
    ∃ l1 l2, d.lru_list = l1 ++ cv :: l2 ∧
      LRUCache.touch d cv = .ok ⟨d.map, cv :: (l1 ++ l2), d.nextId⟩ := by
  obtain ⟨cv', rest, hrem⟩ := listRemoveId_of_mem hcv
  obtain ⟨hid, l1, l2, hl, hrest, -⟩ := listRemoveId_eq_some hrem
  have hcv' : cv' ∈ d.lru_list := hl ▸ List.mem_append.mpr
    (Or.inr (List.mem_cons_self cv' l2))
  have : cv' = cv := eq_of_mem_of_id_eq hnd hcv' hcv hid
  subst this
  subst hrest
  refine ⟨l1, l2, hl, ?_⟩
  simp [LRUCache.touch, hrem]

theorem get_miss {c : LRUCache K V} {k : K}
    (hk : mapGet c.data.map k = none) :
    LRUCache.get c k = .ok (none, c) := by
  simp [LRUCache.get, hk]

theorem get_hit_spec {c : LRUCache K V} {k : K} {cv : CacheValue K V}
    (hInv : CacheInv c) (hk : mapGet c.data.map k = some cv) :
    ∃ l1 l2, c.data.lru_list = l1 ++ cv :: l2 ∧
      LRUCache.get c k = .ok (some cv.value,
        ⟨⟨c.data.map, cv :: (l1 ++ l2), c.data.nextId⟩, c.capacity⟩) := by
  have hcv : cv ∈ c.data.lru_list := (hInv.map_to_list _ (mapGet_mem hk)).1
  obtain ⟨l1, l2, hl, htouch⟩ := touch_spec hInv.ids_nodup hcv
  exact ⟨l1, l2, hl, by simp [LRUCache.get, hk, htouch]⟩

theorem get_ok_spec {c c' : LRUCache K V} {k : K} {r : Option V}
    (hInv : CacheInv c) (h : LRUCache.get c k = .ok (r, c')) :
    c'.data.map = c.data.map ∧ c'.capacity = c.capacity ∧
    c'.data.nextId = c.data.nextId ∧
    c'.data.lru_list.Perm c.data.lru_list := by
  cases hk : mapGet c.data.map k with
  | none =>
    rw [get_miss hk] at h
    injection h with h
    injection h with h1 h2
    subst h2
    exact ⟨rfl, rfl, rfl, List.Perm.refl _⟩
  | some cv =>
    obtain ⟨l1, l2, hl, hget⟩ := get_hit_spec hInv hk
    rw [hget] at h
    injection h with h
    injection h with h1 h2
    subst h2
    refine ⟨rfl, rfl, rfl, ?_⟩
    rw [hl]
    exact List.perm_middle.symm

theorem cacheInv_of_perm {c c' : LRUCache K V} (hInv : CacheInv c)
    (hmap : c'.data.map = c.data.map) (hcap : c'.capacity = c.capacity)
    (hnid : c'.data.nextId = c.data.nextId)
    (hperm : c'.data.lru_list.Perm c.data.lru_list) : CacheInv c' where
  keys_nodup := hmap ▸ hInv.keys_nodup
  ids_nodup := ((hperm.map CacheValue.id).nodup_iff).mpr hInv.ids_nodup
  map_to_list := fun p hp => by
    have := hInv.map_to_list p (hmap ▸ hp)
    exact ⟨hperm.mem_iff.mpr this.1, this.2⟩
  list_to_map := fun cv hcv => by
    rw [hmap]
    exact hInv.list_to_map cv (hperm.mem_iff.mp hcv)
  len_eq := by rw [hmap, hperm.length_eq, hInv.len_eq]
  len_le := by rw [hmap, hcap]; exact hInv.len_le
  ids_lt := fun cv hcv => hnid ▸ hInv.ids_lt cv (hperm.mem_iff.mp hcv)

theorem inv_get {c c' : LRUCache K V} {k : K} {r : Option V}
    (hInv : CacheInv c) (h : LRUCache.get c k = .ok (r, c')) : CacheInv c' := by
  obtain ⟨h1, h2, h3, h4⟩ := get_ok_spec hInv h
  exact cacheInv_of_perm hInv h1 h2 h3 h4

theorem evict_spec {c : LRUCache K V} {cv : CacheValue K V}
    {rest : List (CacheValue K V)} (hInv : CacheInv c)
    (hl : c.data.lru_list = cv :: rest) :
    LRUCache.evict_lru c =
      .ok ⟨⟨mapRemove c.data.map cv.key, rest, c.data.nextId⟩, c.capacity⟩ := by
  have hcv : cv ∈ c.data.lru_list := hl ▸ List.mem_cons_self cv rest
  have hget := hInv.list_to_map cv hcv
  simp [LRUCache.evict_lru, hl, hget]

theorem evict_ok_inv {c : LRUCache K V} {cv : CacheValue K V}
    {rest : List (CacheValue K V)} (hInv : CacheInv c)
    (hl : c.data.lru_list = cv :: rest) :
    CacheInv ⟨⟨mapRemove c.data.map cv.key, rest, c.data.nextId⟩, c.capacity⟩ ∧
    (mapRemove c.data.map cv.key).length + 1 = c.data.map.length := by
  have hcv : cv ∈ c.data.lru_list := hl ▸ List.mem_cons_self cv rest
  have hget := hInv.list_to_map cv hcv
  have hkeys' : ((mapRemove c.data.map cv.key).map Prod.fst).Nodup :=
    hInv.keys_nodup.sublist ((mapRemove_sublist _ _).map Prod.fst)
  have hlen := length_mapRemove hget
  have hids := hInv.ids_nodup
  rw [hl] at hids
  simp only [List.map_cons, List.nodup_cons] at hids
  refine ⟨⟨hkeys', hids.2, ?_, ?_, ?_, ?_, ?_⟩, hlen⟩
  · intro p hp
    have hpm : p ∈ c.data.map := (mapRemove_sublist _ _).subset hp
    obtain ⟨hpl, hpk⟩ := hInv.map_to_list p hpm
    rw [hl] at hpl
    rcases List.mem_cons.mp hpl with hpe | hpl
    · exfalso
      have h1 : p.1 = cv.key := by rw [← hpk, hpe]
      have h2 := mapGet_of_mem_nodup hkeys' hp
      rw [h1, mapGet_mapRemove_self hInv.keys_nodup] at h2
      exact Option.noConfusion h2
    · exact ⟨hpl, hpk⟩
  · intro cv' hcv'
    have hmem : cv' ∈ rest := hcv'
    have hcl : cv' ∈ c.data.lru_list := hl ▸ List.mem_cons.mpr (Or.inr hmem)
    have hget' := hInv.list_to_map cv' hcl
    have hne : cv'.key ≠ cv.key := by
      intro he
      rw [he, hget] at hget'
      injection hget' with hget'
      rw [← hget'] at hmem
      exact hids.1 (List.mem_map.mpr ⟨cv, hmem, rfl⟩)
    show mapGet (mapRemove c.data.map cv.key) cv'.key = some cv'
    rw [mapGet_mapRemove_ne _ hne]
    exact hget'
  · show (mapRemove c.data.map cv.key).length = rest.length
    have := hInv.len_eq
    rw [hl] at this
    simp only [List.length_cons] at this
    omega
  · show (mapRemove c.data.map cv.key).length ≤ c.capacity
    have := hInv.len_le
    omega
  · intro cv' hcv'
    have hmem : cv' ∈ rest := hcv'
    exact hInv.ids_lt cv' (hl ▸ List.mem_cons.mpr (Or.inr hmem))
theorem make_room_cases {c c1 : LRUCache K V}
    (h : LRUCache.make_room c = .ok c1) :
    (c.data.map.length ≠ c.capacity ∧ c1 = c) ∨
    (c.data.map.length = c.capacity ∧ LRUCache.evict_lru c = .ok c1) := by
  by_cases hfull : c.data.map.length = c.capacity
  · right
    refine ⟨hfull, ?_⟩
    rw [LRUCache.make_room, if_pos hfull] at h
    exact h
  · left
    rw [LRUCache.make_room, if_neg hfull] at h
    injection h with h
    exact ⟨hfull, h.symm⟩

theorem put_present_spec {c : LRUCache K V} {k : K} {cv : CacheValue K V}
    (v : V) (hInv : CacheInv c) (hk : mapGet c.data.map k = some cv) :
    ∃ l1 l2, c.data.lru_list = l1 ++ cv :: l2 ∧
      LRUCache.put c k v = .ok (some cv.value,
        ⟨⟨mapInsert c.data.map k ⟨c.data.nextId, k, v⟩,
          ⟨c.data.nextId, k, v⟩ :: (l1 ++ l2), c.data.nextId + 1⟩,
          c.capacity⟩) := by
  have hcv : cv ∈ c.data.lru_list := (hInv.map_to_list _ (mapGet_mem hk)).1
  obtain ⟨cv', rest, hrem⟩ := listRemoveId_of_mem hcv
  obtain ⟨hid, l1, l2, hl, hrest, -⟩ := listRemoveId_eq_some hrem
  have hcv' : cv' ∈ c.data.lru_list := hl ▸ List.mem_append.mpr
    (Or.inr (List.mem_cons_self cv' l2))
  have heq : cv' = cv := eq_of_mem_of_id_eq hInv.ids_nodup hcv' hcv hid
  subst heq
  subst hrest
  refine ⟨l1, l2, hl, ?_⟩
  simp [LRUCache.put, hk, hrem]

theorem put_new_spec {c c' : LRUCache K V} {k : K} {v : V} {r : Option V}
    (hInv : CacheInv c) (hk : mapGet c.data.map k = none)
    (h : LRUCache.put c k v = .ok (r, c')) :
    r = none ∧
    ((c.data.map.length ≠ c.capacity ∧
        c' = ⟨⟨mapInsert c.data.map k ⟨c.data.nextId, k, v⟩,
               ⟨c.data.nextId, k, v⟩ :: c.data.lru_list, c.data.nextId + 1⟩,
               c.capacity⟩) ∨
     (c.data.map.length = c.capacity ∧ ∃ cv rest,
        c.data.lru_list = cv :: rest ∧
        c' = ⟨⟨mapInsert (mapRemove c.data.map cv.key) k ⟨c.data.nextId, k, v⟩,
               ⟨c.data.nextId, k, v⟩ :: rest, c.data.nextId + 1⟩,
               c.capacity⟩)) := by
  rw [LRUCache.put] at h
  simp only [hk, Option.isNone_none, if_pos] at h
  cases hmr : LRUCache.make_room c with
  | error e => rw [hmr] at h; exact absurd h (by simp)
  | ok c1 =>
    rw [hmr] at h
    simp only at h
    rcases make_room_cases hmr with ⟨hfull, hc1⟩ | ⟨hfull, hev⟩
    · subst hc1
      rw [hk] at h
      injection h with h
      injection h with h1 h2
      exact ⟨h1.symm, Or.inl ⟨hfull, h2.symm⟩⟩
    · cases hll : c.data.lru_list with
      | nil =>
        rw [LRUCache.evict_lru, hll] at hev
        exact absurd hev (by simp)
      | cons cv rest =>
        rw [evict_spec hInv hll] at hev
        injection hev with hev
        subst hev
        have hk1 : mapGet (mapRemove c.data.map cv.key) k = none :=
          mapGet_mapRemove_none hk
        rw [show (⟨⟨mapRemove c.data.map cv.key, rest, c.data.nextId⟩,
              c.capacity⟩ : LRUCache K V).data.map =
            mapRemove c.data.map cv.key from rfl, hk1] at h
        injection h with h
        injection h with h1 h2
        exact ⟨h1.symm, Or.inr ⟨hfull, cv, rest, rfl, h2.symm⟩⟩

/-- Pushing a fresh node for an absent key preserves the invariant. -/
theorem cacheInv_insert_new {m : List (K × CacheValue K V)}
    {l : List (CacheValue K V)} {nid cap : Nat} {k : K} {v : V}
    (hkeys : (m.map Prod.fst).Nodup) (hids : (l.map CacheValue.id).Nodup)
    (hmtl : ∀ p ∈ m, p.2 ∈ l ∧ p.2.key = p.1)
    (hltm : ∀ cv ∈ l, mapGet m cv.key = some cv)
    (hle : m.length = l.length) (hcap : m.length < cap)
    (hidlt : ∀ cv ∈ l, cv.id < nid)
    (hk : mapGet m k = none) :
    CacheInv ⟨⟨mapInsert m k ⟨nid, k, v⟩, ⟨nid, k, v⟩ :: l, nid + 1⟩, cap⟩ := by
  have hknotin : k ∉ m.map Prod.fst := (mapGet_eq_none_iff m k).mp hk
  refine ⟨?_, ?_, ?_, ?_, ?_, ?_, ?_⟩
  · show ((mapInsert m k ⟨nid, k, v⟩).map Prod.fst).Nodup
    rw [keys_mapInsert_of_none _ hk]
    rw [List.nodup_append]
    exact ⟨hkeys, List.nodup_singleton k, by
      intro x hx hx'
      rw [List.mem_singleton] at hx'
      exact hknotin (hx' ▸ hx)⟩
  · show ((⟨nid, k, v⟩ :: l).map CacheValue.id).Nodup
    simp only [List.map_cons, List.nodup_cons]
    refine ⟨?_, hids⟩
    intro hmem
    obtain ⟨cv, hcv, hcvid⟩ := List.mem_map.mp hmem
    exact absurd hcvid (Nat.ne_of_lt (hidlt cv hcv))
  · intro p hp
    rcases mem_mapInsert_nodup hkeys hp with hpe | ⟨hpm, hpne⟩
    · subst hpe
      exact ⟨List.mem_cons_self _ _, rfl⟩
    · obtain ⟨hpl, hpk⟩ := hmtl p hpm
      exact ⟨List.mem_cons.mpr (Or.inr hpl), hpk⟩
  · intro cv hcv
    rcases List.mem_cons.mp hcv with hce | hcl
    · subst hce
      show mapGet (mapInsert m k ⟨nid, k, v⟩) k = _
      rw [mapGet_mapInsert_self]
    · have hget := hltm cv hcl
      have hne : cv.key ≠ k := by
        intro he
        rw [he, hk] at hget
        exact Option.noConfusion hget
      show mapGet (mapInsert m k ⟨nid, k, v⟩) cv.key = some cv
      rw [mapGet_mapInsert_ne _ _ hne]
      exact hget
  · show (mapInsert m k ⟨nid, k, v⟩).length = (⟨nid, k, v⟩ :: l).length
    rw [length_mapInsert_of_none _ hk]
    simp [hle]
  · show (mapInsert m k ⟨nid, k, v⟩).length ≤ cap
    rw [length_mapInsert_of_none _ hk]
    omega
  · intro cv hcv
    rcases List.mem_cons.mp hcv with hce | hcl
    · subst hce
      exact Nat.lt_succ_self nid
    · exact Nat.lt_succ_of_lt (hidlt cv hcl)

theorem inv_put {c c' : LRUCache K V} {k : K} {v : V} {r : Option V}
    (hInv : CacheInv c) (h : LRUCache.put c k v = .ok (r, c')) :
    CacheInv c' ∧ c'.capacity = c.capacity ∧
    ((∀ cv, mapGet c.data.map k = some cv →
        c'.data.map.length = c.data.map.length) ∧
     (mapGet c.data.map k = none → c.data.map.length = c.capacity →
        c'.data.map.length = c.data.map.length) ∧
     (mapGet c.data.map k = none → c.data.map.length ≠ c.capacity →
        c'.data.map.length = c.data.map.length + 1)) := by
  cases hk : mapGet c.data.map k with
  | some cv =>
    obtain ⟨l1, l2, hl, hput⟩ := put_present_spec v hInv hk
    rw [hput] at h
    injection h with h
    injection h with h1 h2
    subst h2
    have hcvkey : cv.key = k := (hInv.map_to_list _ (mapGet_mem hk)).2
    have hlen : (mapInsert c.data.map k ⟨c.data.nextId, k, v⟩).length =
        c.data.map.length := length_mapInsert_of_some _ hk
    refine ⟨⟨?_, ?_, ?_, ?_, ?_, ?_, ?_⟩, rfl, ?_, ?_, ?_⟩
    · show ((mapInsert c.data.map k ⟨c.data.nextId, k, v⟩).map Prod.fst).Nodup
      rw [keys_mapInsert_of_some _ hk]
      exact hInv.keys_nodup
    · show ((⟨c.data.nextId, k, v⟩ :: (l1 ++ l2)).map CacheValue.id).Nodup
      simp only [List.map_cons, List.nodup_cons]
      have hids := hInv.ids_nodup
      rw [hl] at hids
      obtain ⟨hnotin, hnd⟩ := nodup_middle_map hids
      refine ⟨?_, hnd⟩
      intro hmem
      obtain ⟨cv', hcv', hcvid⟩ := List.mem_map.mp hmem
      have : cv' ∈ c.data.lru_list := hl ▸ List.Perm.mem_iff
        (@List.perm_middle _ cv l1 l2).symm |>.mp
        (List.mem_cons.mpr (Or.inr hcv'))
      exact absurd hcvid (Nat.ne_of_lt (hInv.ids_lt cv' this))
    · intro p hp
      rcases mem_mapInsert_nodup hInv.keys_nodup hp with hpe | ⟨hpm, hpne⟩
      · subst hpe
        exact ⟨List.mem_cons_self _ _, rfl⟩
      · obtain ⟨hpl, hpk⟩ := hInv.map_to_list p hpm
        rw [hl] at hpl
        have hpne' : p.2 ≠ cv := by
          intro he
          rw [he] at hpk
          rw [hcvkey] at hpk
          exact hpne hpk.symm
        have : p.2 ∈ l1 ++ l2 := by
          rcases List.mem_append.mp hpl with hm | hm
          · exact List.mem_append.mpr (Or.inl hm)
          · rcases List.mem_cons.mp hm with hm | hm
            · exact absurd hm hpne'
            · exact List.mem_append.mpr (Or.inr hm)
        exact ⟨List.mem_cons.mpr (Or.inr this), hpk⟩
    · intro cv' hcv'
      rcases List.mem_cons.mp hcv' with hce | hcl
      · subst hce
        show mapGet (mapInsert c.data.map k ⟨c.data.nextId, k, v⟩) k = _
        rw [mapGet_mapInsert_self]
      · have hmem : cv' ∈ l1 ++ l2 := hcl
        have hcvl : cv' ∈ c.data.lru_list := by
          rw [hl]
          rcases List.mem_append.mp hmem with hm | hm
          · exact List.mem_append.mpr (Or.inl hm)
          · exact List.mem_append.mpr (Or.inr (List.mem_cons.mpr (Or.inr hm)))
        have hget' := hInv.list_to_map cv' hcvl
        have hne : cv'.key ≠ k := by
          intro he
          rw [he, hk] at hget'
          injection hget' with hget'
          have hids := hInv.ids_nodup
          rw [hl] at hids
          obtain ⟨hnotin, -⟩ := nodup_middle_map hids
          rw [← hget'] at hmem
          exact hnotin (List.mem_map.mpr ⟨cv, hmem, rfl⟩)
        show mapGet (mapInsert c.data.map k ⟨c.data.nextId, k, v⟩) cv'.key =
          some cv'
        rw [mapGet_mapInsert_ne _ _ hne]
        exact hget'
    · show (mapInsert c.data.map k ⟨c.data.nextId, k, v⟩).length =
        (⟨c.data.nextId, k, v⟩ :: (l1 ++ l2)).length
      rw [hlen, hInv.len_eq, hl]
      simp only [List.length_append, List.length_cons]
      omega
    · show (mapInsert c.data.map k ⟨c.data.nextId, k, v⟩).length ≤ c.capacity
      rw [hlen]
      exact hInv.len_le
    · intro cv' hcv'
      rcases List.mem_cons.mp hcv' with hce | hcl
      · subst hce
        exact Nat.lt_succ_self _
      · have hmem : cv' ∈ l1 ++ l2 := hcl
        have hcvl : cv' ∈ c.data.lru_list := by
          rw [hl]
          rcases List.mem_append.mp hmem with hm | hm
          · exact List.mem_append.mpr (Or.inl hm)
          · exact List.mem_append.mpr (Or.inr (List.mem_cons.mpr (Or.inr hm)))
        exact Nat.lt_succ_of_lt (hInv.ids_lt cv' hcvl)
    · intro cv' hcv'
      exact hlen
    · intro hnone
      exact absurd hnone (by simp)
    · intro hnone
      exact absurd hnone (by simp)
  | none =>
    obtain ⟨hr, hcases⟩ := put_new_spec hInv hk h
    rcases hcases with ⟨hfull, hc'⟩ | ⟨hfull, cv, rest, hll, hc'⟩
    · subst hc'
      have hlt : c.data.map.length < c.capacity :=
        Nat.lt_of_le_of_ne hInv.len_le hfull
      refine ⟨cacheInv_insert_new hInv.keys_nodup hInv.ids_nodup
        hInv.map_to_list hInv.list_to_map hInv.len_eq hlt hInv.ids_lt hk,
        rfl, ?_, ?_, ?_⟩
      · intro cv hcv
        exact absurd hcv (by simp)
      · intro _ hfull'
        exact absurd hfull' hfull
      · intro _ _
        show (mapInsert c.data.map k ⟨c.data.nextId, k, v⟩).length =
          c.data.map.length + 1
        exact length_mapInsert_of_none _ hk
    · subst hc'
      obtain ⟨hInv1, hlen1⟩ := evict_ok_inv hInv hll
      have hk1 : mapGet (mapRemove c.data.map cv.key) k = none :=
        mapGet_mapRemove_none hk
      have hlt : (mapRemove c.data.map cv.key).length < c.capacity := by
        omega
      refine ⟨?_, rfl, ?_, ?_, ?_⟩
      · exact cacheInv_insert_new hInv1.keys_nodup hInv1.ids_nodup
          hInv1.map_to_list hInv1.list_to_map hInv1.len_eq hlt hInv1.ids_lt hk1
      · intro cv' hcv'
        exact absurd hcv' (by simp)
      · intro _ _
        show (mapInsert (mapRemove c.data.map cv.key) k
          ⟨c.data.nextId, k, v⟩).length = c.data.map.length
        rw [length_mapInsert_of_none _ hk1]
        omega
      · intro _ hne
        exact absurd hfull hne

theorem inv_new (capacity : Nat) : CacheInv (LRUCache.new K V capacity) := by
  refine ⟨?_, ?_, ?_, ?_, ?_, ?_, ?_⟩ <;>
    simp [LRUCache.new]

theorem inv_of_reachable {c : LRUCache K V} (h : Reachable c) : CacheInv c := by
  induction h with
  | new capacity => exact inv_new capacity
  | get c c' k r _ hstep ih => exact inv_get ih hstep
  | put c c' k v r _ hstep ih => exact (inv_put ih hstep).1

/-- Whatever path `put` takes, on success the new node (carrying `k` and `v`)
is bound to `k` in the map and sits at the front of the recency list. -/
theorem put_ok_shape {c c' : LRUCache K V} {k : K} {v : V} {r : Option V}
    (h : LRUCache.put c k v = .ok (r, c')) :
    ∃ m l, c'.data.map = mapInsert m k ⟨c.data.nextId, k, v⟩ ∧
      c'.data.lru_list = ⟨c.data.nextId, k, v⟩ :: l := by
  rw [LRUCache.put] at h
  have main : ∀ c1 : LRUCache K V,
      (match mapGet c1.data.map k with
        | none =>
          Except.ok (none,
            ({ capacity := c1.capacity,
               data := { map := mapInsert c1.data.map k ⟨c.data.nextId, k, v⟩,
                         lru_list := ⟨c.data.nextId, k, v⟩ :: c1.data.lru_list,
                         nextId := c.data.nextId + 1 } } : LRUCache K V))
        | some old_cv =>
          match listRemoveId c1.data.lru_list old_cv.id with
          | (some removed, rest) =>
            Except.ok (some removed.value,
              { capacity := c1.capacity,
                data := { map := mapInsert c1.data.map k ⟨c.data.nextId, k, v⟩,
                          lru_list := ⟨c.data.nextId, k, v⟩ :: rest,
                          nextId := c.data.nextId + 1 } })
          | (none, _) => Except.error "Unexpected error") = .ok (r, c') →
      ∃ m l, c'.data.map = mapInsert m k ⟨c.data.nextId, k, v⟩ ∧
        c'.data.lru_list = ⟨c.data.nextId, k, v⟩ :: l := by
    intro c1 h1
    cases hk1 : mapGet c1.data.map k with
    | none =>
      rw [hk1] at h1
      injection h1 with h1
      injection h1 with ha hb
      exact ⟨c1.data.map, c1.data.lru_list, by rw [← hb], by rw [← hb]⟩
    | some old_cv =>
      rw [hk1] at h1
      simp only at h1
      cases hrem : listRemoveId c1.data.lru_list old_cv.id with
      | mk fst snd =>
        cases fst with
        | none =>
          rw [hrem] at h1
          exact absurd h1 (by simp)
        | some removed =>
          rw [hrem] at h1
          simp only at h1
          injection h1 with h1
          injection h1 with ha hb
          exact ⟨c1.data.map, snd, by rw [← hb], by rw [← hb]⟩
  cases hk : mapGet c.data.map k with
  | none =>
    simp only [hk, Option.isNone_none, if_pos] at h
    cases hmr : LRUCache.make_room c with
    | error e =>
      rw [hmr] at h
      exact absurd h (by simp)
    | ok c1 =>
      rw [hmr] at h
      simp only at h
      exact main c1 h
  | some cv =>
    simp only [hk, Option.isNone_some, Bool.false_eq_true, if_false] at h
    cases hrem : listRemoveId c.data.lru_list cv.id with
    | mk fst snd =>
      cases fst with
      | none =>
        rw [hrem] at h
        exact absurd h (by simp)
      | some removed =>
        rw [hrem] at h
        simp only at h
        injection h with h
        injection h with ha hb
        exact ⟨c.data.map, snd, by rw [← hb], by rw [← hb]⟩

/-! ## Operation sequences and size accounting -/

inductive Op (K V : Type) where
  | get (k : K)
  | put (k : K) (v : V)
deriving DecidableEq

/-- Run a sequence of operations, threading the cache state and counting the
insertions (puts of a key not currently present) and the evictions the code
performs. -/
def runCount (c : LRUCache K V) (ins ev : Nat) :
    List (Op K V) → Except String (LRUCache K V × Nat × Nat)
  | [] => .ok (c, ins, ev)
  | Op.get k :: rest =>
    match LRUCache.get c k with
    | .error e => .error e
    | .ok (_, c') => runCount c' ins ev rest
  | Op.put k v :: rest =>
    match LRUCache.put c k v with
    | .error e => .error e
    | .ok (_, c') =>
      runCount c'
        (if (mapGet c.data.map k).isNone then ins + 1 else ins)
        (if (mapGet c.data.map k).isNone ∧ c.data.map.length = c.capacity
          then ev + 1 else ev) rest

theorem runCount_spec (ops : List (Op K V)) :
    ∀ {c : LRUCache K V} {ins ev : Nat} {c' : LRUCache K V} {i e : Nat},
    CacheInv c → c.data.map.length + ev = ins →
    runCount c ins ev ops = .ok (c', i, e) →
    CacheInv c' ∧ c'.data.map.length + e = i ∧ c'.capacity = c.capacity := by
  induction ops with
  | nil =>
    intro c ins ev c' i e hInv hacc h
    simp only [runCount] at h
    injection h with h
    injection h with h1 h2
    injection h2 with h2 h3
    subst h1
    subst h2
    subst h3
    exact ⟨hInv, hacc, rfl⟩
  | cons op rest ih =>
    intro c ins ev c' i e hInv hacc h
    cases op with
    | get k =>
      simp only [runCount] at h
      cases hg : LRUCache.get c k with
      | error e' =>
        rw [hg] at h
        exact absurd h (by simp)
      | ok p =>
        obtain ⟨rv, c1⟩ := p
        rw [hg] at h
        have hInv1 := inv_get hInv hg
        obtain ⟨hm, hcap, -, -⟩ := get_ok_spec hInv hg
        have hacc1 : c1.data.map.length + ev = ins := by rw [hm]; exact hacc
        obtain ⟨a, b, ccap⟩ := ih hInv1 hacc1 h
        exact ⟨a, b, by rw [ccap, hcap]⟩
    | put k v =>
      simp only [runCount] at h
      cases hp : LRUCache.put c k v with
      | error e' =>
        rw [hp] at h
        exact absurd h (by simp)
      | ok p =>
        obtain ⟨rv, c1⟩ := p
        rw [hp] at h
        simp only at h
        obtain ⟨hInv1, hcap, hsome, hfull, hnotfull⟩ := inv_put hInv hp
        cases hk : mapGet c.data.map k with
        | some cv =>
          rw [if_neg (by simp [hk]), if_neg (by simp [hk])] at h
          have hacc1 : c1.data.map.length + ev = ins := by
            rw [hsome cv hk]; exact hacc
          obtain ⟨a, b, ccap⟩ := ih hInv1 hacc1 h
          exact ⟨a, b, by rw [ccap, hcap]⟩
        | none =>
          by_cases hlen : c.data.map.length = c.capacity
          · rw [if_pos (by simp [hk]), if_pos ⟨by simp [hk], hlen⟩] at h
            have hacc1 : c1.data.map.length + (ev + 1) = ins + 1 := by
              rw [hfull hk hlen]; omega
            obtain ⟨a, b, ccap⟩ := ih hInv1 hacc1 h
            exact ⟨a, b, by rw [ccap, hcap]⟩
          · rw [if_pos (by simp [hk]), if_neg (by simp [hlen])] at h
            have hacc1 : c1.data.map.length + ev = ins + 1 := by
              rw [hnotfull hk hlen]; omega
            obtain ⟨a, b, ccap⟩ := ih hInv1 hacc1 h
            exact ⟨a, b, by rw [ccap, hcap]⟩

/-! ## Concrete reachable and desynchronised states used by the witnesses -/

/-- The state after `new(2); put(1,1)`. -/
def cacheA : LRUCache Nat Nat := ⟨⟨[(1, ⟨0, 1, 1⟩)], [⟨0, 1, 1⟩], 1⟩, 2⟩

/-- The state after `new(2); put(1,1); put(2,2)`. -/
def cacheB : LRUCache Nat Nat :=
  ⟨⟨[(1, ⟨0, 1, 1⟩), (2, ⟨1, 2, 2⟩)], [⟨1, 2, 2⟩, ⟨0, 1, 1⟩], 2⟩, 2⟩

theorem reachable_cacheA : Reachable cacheA :=
  Reachable.put (LRUCache.new Nat Nat 2) cacheA 1 1 none
    (Reachable.new 2) (by decide)

theorem reachable_cacheB : Reachable cacheB :=
  Reachable.put cacheA cacheB 2 2 none reachable_cacheA (by decide)

/-! ## The claims -/

/-- C1: the claim says a `put` of a new key into a full cache evicts the
least-recently-touched entry, and in particular that in Scenario B
(`put(1,1)`; `put(2,2)`; `get(1)`; `put(3,3)` with capacity 2) key 2 is
evicted, so `get(2) = None`, `get(1) = Some 1`, `get(3) = Some 3`.  The code
does the opposite: `evict_lru` pops the *front* of the recency list — the end
`put` and `touch` push to — so `put(3,3)` evicts key 1, the most recently
used entry, and afterwards `get(2) = Some 2` and `get(1) = None`.  This
theorem evaluates the code on the claim's own scenario. -/
theorem claim_C1_scenarioB_evicts_mru :
    scenarioB = .ok (some 1, some 2, none, some 3) := by decide

/-- C2, counterexample: the claim says every `put` performs its whole
index+order mutation inside one exclusive critical section, with no release
between deciding to evict and evicting.  On the path where the key is new and
the cache is full, `put`'s event trace (read off `src/cache.rs` lines
125–176, 202–217) is not a single critical section: the mutex is acquired
twice and both the eviction and the insertion run with no guard held. -/
theorem claim_C2_counterexample :
    singleCriticalSection (putEvents true true) = false := by decide

/-- C2, amended: `get` does execute its whole mutation under one critical
section on both of its paths; `put`, however, acquires the mutex twice on the
new-key path (presence check at line 133, capacity check at line 203),
releases it after each check (lines 135 and 205), and performs the eviction
and the insertion through `get_mut` with no guard held — mutual exclusion for
`put` is provided by its exclusive `&mut self` receiver, not by a single
critical section. -/
theorem claim_C2_amended :
    (∀ hit, singleCriticalSection (getEvents hit) = true) ∧
    (∀ keyAbsent full, (putEvents keyAbsent full).count LockEvent.acquire =
      if keyAbsent then 2 else 1) ∧
    (∀ keyAbsent full, eventsOutsideLock false (putEvents keyAbsent full) =
      (if keyAbsent ∧ full then [LockEvent.mutateEvict] else []) ++
        [LockEvent.mutateInsert]) := by decide

/-- C3: the claim says a capacity-0 cache is a defined degenerate case in
which `put` always completes normally, returning `None` and retaining
nothing.  In the code, the very first `put` on a capacity-0 cache calls
`make_room` (`map.len() == 0 == capacity`), which calls `evict_lru`, which
panics at `expect("List must not be none")` because the recency list is
empty — `put` never completes normally.  `get` on the untouched cache does
miss for every key. -/
theorem claim_C3_capacity_zero_put_panics :
    LRUCache.put (LRUCache.new Nat Nat 0) 1 2 =
      .error "List must not be none" ∧
    LRUCache.get (LRUCache.new Nat Nat 0) 1 =
      .ok (none, LRUCache.new Nat Nat 0) := by decide

/-- C4: after every completed operation (i.e. in every reachable state),
every key in the map is bound to exactly one node of the recency list, every
node of the list is the binding of its own key, and
`|map| = |list| ≤ capacity`. -/
theorem claim_C4_bijection {c : LRUCache K V} (h : Reachable c) :
    (∀ k cv, mapGet c.data.map k = some cv → cv ∈ c.data.lru_list ∧
      ∀ cv' ∈ c.data.lru_list, cv'.key = k → cv' = cv) ∧
    (∀ cv ∈ c.data.lru_list, mapGet c.data.map cv.key = some cv) ∧
    c.data.map.length = c.data.lru_list.length ∧
    c.data.map.length ≤ c.capacity := by
  have hInv := inv_of_reachable h
  refine ⟨?_, hInv.list_to_map, hInv.len_eq, hInv.len_le⟩
  intro k cv hk
  refine ⟨(hInv.map_to_list _ (mapGet_mem hk)).1, ?_⟩
  intro cv' hcv' hkey
  have hcv2 := hInv.list_to_map cv' hcv'
  rw [hkey, hk] at hcv2
  injection hcv2 with hcv2
  exact hcv2.symm

theorem claim_C4_witness :
    mapGet cacheB.data.map 1 = some ⟨0, 1, 1⟩ ∧
    (⟨0, 1, 1⟩ : CacheValue Nat Nat) ∈ cacheB.data.lru_list ∧
    cacheB.data.map.length = cacheB.data.lru_list.length ∧
    cacheB.data.map.length ≤ cacheB.capacity :=
  ⟨by decide,
   ((claim_C4_bijection reachable_cacheB).1 1 ⟨0, 1, 1⟩ (by decide)).1,
   (claim_C4_bijection reachable_cacheB).2.2.1,
   (claim_C4_bijection reachable_cacheB).2.2.2⟩

/-- C5: for every operation sequence run from a fresh cache, after each
completed prefix (in particular, after each completed `put`) the size of the
map equals `min capacity (insertions − evictions)`, where an insertion is a
`put` of a key not present at the time of the call, and the size never
exceeds the capacity. -/
theorem claim_C5_size_formula (cap : Nat) (ops : List (Op K V))
    (c : LRUCache K V) (i e : Nat)
    (h : runCount (LRUCache.new K V cap) 0 0 ops = .ok (c, i, e)) :
    c.data.map.length = min cap (i - e) ∧ c.data.map.length ≤ cap := by
  obtain ⟨hInv, hacc, hcap⟩ :=
    runCount_spec ops (inv_new cap) (by simp [LRUCache.new]) h
  have hle : c.data.map.length ≤ cap := by
    have := hInv.len_le
    rw [hcap] at this
    exact this
  refine ⟨?_, hle⟩
  have hie : i - e = c.data.map.length := by omega
  rw [hie]
  exact (Nat.min_eq_right hle).symm

theorem claim_C5_witness :
    (⟨⟨[(2, ⟨1, 2, 2⟩)], [⟨1, 2, 2⟩], 2⟩, 1⟩ :
      LRUCache Nat Nat).data.map.length = min 1 (2 - 1) ∧
    (⟨⟨[(2, ⟨1, 2, 2⟩)], [⟨1, 2, 2⟩], 2⟩, 1⟩ :
      LRUCache Nat Nat).data.map.length ≤ 1 :=
  claim_C5_size_formula 1 [Op.put 1 1, Op.put 2 2] _ 2 1 (by decide)

/-- C6: on a hit, `get` detaches the entry's node from its current position
in the recency list and reinserts it at the front (making it most recently
used), returning a copy of the stored value, with the map untouched; on a
miss, `get` returns `None` and leaves the whole state unchanged. -/
theorem claim_C6_get_touch {c : LRUCache K V} (h : Reachable c) :
    (∀ k cv, mapGet c.data.map k = some cv →
      ∃ l1 l2, c.data.lru_list = l1 ++ cv :: l2 ∧
        LRUCache.get c k = .ok (some cv.value,
          ⟨⟨c.data.map, cv :: (l1 ++ l2), c.data.nextId⟩, c.capacity⟩)) ∧
    (∀ k, mapGet c.data.map k = none →
      LRUCache.get c k = .ok (none, c)) :=
  ⟨fun _ _ hk => get_hit_spec (inv_of_reachable h) hk,
   fun _ hk => get_miss hk⟩

theorem claim_C6_witness :
    (∃ l1 l2, cacheB.data.lru_list = l1 ++ ⟨0, 1, 1⟩ :: l2 ∧
      LRUCache.get cacheB 1 = .ok (some 1,
        ⟨⟨cacheB.data.map, ⟨0, 1, 1⟩ :: (l1 ++ l2), cacheB.data.nextId⟩,
          cacheB.capacity⟩)) ∧
    LRUCache.get cacheB 5 = .ok (none, cacheB) :=
  ⟨(claim_C6_get_touch reachable_cacheB).1 1 ⟨0, 1, 1⟩ (by decide),
   (claim_C6_get_touch reachable_cacheB).2 5 (by decide)⟩

/-- C7: when `k` is already present with stored node `cv`, `put k v2`
replaces the stored value (afterwards `k` is bound to a node carrying `v2`),
puts `k`'s node at the front of the recency list (most recently used),
returns `Some` of the old value, and leaves the size unchanged — no eviction
happens. -/
theorem claim_C7_put_replace {c : LRUCache K V} {k : K} {cv : CacheValue K V}
    (v2 : V) (h : Reachable c) (hk : mapGet c.data.map k = some cv) :
    ∃ rest, LRUCache.put c k v2 = .ok (some cv.value,
      ⟨⟨mapInsert c.data.map k ⟨c.data.nextId, k, v2⟩,
        ⟨c.data.nextId, k, v2⟩ :: rest, c.data.nextId + 1⟩, c.capacity⟩) ∧
      (mapInsert c.data.map k ⟨c.data.nextId, k, v2⟩).length =
        c.data.map.length ∧
      mapGet (mapInsert c.data.map k ⟨c.data.nextId, k, v2⟩) k =
        some ⟨c.data.nextId, k, v2⟩ := by
  obtain ⟨l1, l2, hl, hput⟩ := put_present_spec v2 (inv_of_reachable h) hk
  exact ⟨l1 ++ l2, hput, length_mapInsert_of_some _ hk,
    mapGet_mapInsert_self _ _ _⟩

theorem claim_C7_witness :
    ∃ rest, LRUCache.put cacheB 1 9 = .ok (some 1,
      ⟨⟨mapInsert cacheB.data.map 1 ⟨cacheB.data.nextId, 1, 9⟩,
        ⟨cacheB.data.nextId, 1, 9⟩ :: rest, cacheB.data.nextId + 1⟩,
        cacheB.capacity⟩) ∧
      (mapInsert cacheB.data.map 1 ⟨cacheB.data.nextId, 1, 9⟩).length =
        cacheB.data.map.length ∧
      mapGet (mapInsert cacheB.data.map 1 ⟨cacheB.data.nextId, 1, 9⟩) 1 =
        some ⟨cacheB.data.nextId, 1, 9⟩ :=
  @claim_C7_put_replace Nat Nat _ cacheB 1 ⟨0, 1, 1⟩ 9 reachable_cacheB
    (by decide)

/-- C8: a `get k` performed immediately after any completed `put k v`
returns `Some v`, in every state (reachable or not). -/
theorem claim_C8_get_after_put {c c' : LRUCache K V} {k : K} {v : V}
    {r : Option V} (h : LRUCache.put c k v = .ok (r, c')) :
    ∃ c'', LRUCache.get c' k = .ok (some v, c'') := by
  obtain ⟨m, l, hmap, hlist⟩ := put_ok_shape h
  have hget : mapGet c'.data.map k = some ⟨c.data.nextId, k, v⟩ := by
    rw [hmap]
    exact mapGet_mapInsert_self _ _ _
  have hrem : listRemoveId c'.data.lru_list (⟨c.data.nextId, k, v⟩ :
      CacheValue K V).id = (some ⟨c.data.nextId, k, v⟩, l) := by
    rw [hlist]
    simp [listRemoveId]
  have htouch : LRUCache.touch c'.data ⟨c.data.nextId, k, v⟩ =
      .ok ⟨c'.data.map, ⟨c.data.nextId, k, v⟩ :: l, c'.data.nextId⟩ := by
    unfold LRUCache.touch
    rw [hrem]
  refine ⟨⟨⟨c'.data.map, ⟨c.data.nextId, k, v⟩ :: l, c'.data.nextId⟩,
    c'.capacity⟩, ?_⟩
  simp [LRUCache.get, hget, htouch]

theorem claim_C8_witness :
    ∃ c'', LRUCache.get cacheA 1 = .ok (some 1, c'') :=
  claim_C8_get_after_put
    (show LRUCache.put (LRUCache.new Nat Nat 2) 1 1 = .ok (none, cacheA)
      by decide)

/-- C10: in every reachable state, the node a key is bound to stores exactly
that key in its own `key` field — the fact `evict_lru` relies on when it
removes `lru_value.key` from the map given only the node popped off the
list. -/
theorem claim_C10_key_consistency {c : LRUCache K V} (h : Reachable c) :
    ∀ k cv, mapGet c.data.map k = some cv → cv.key = k := by
  intro k cv hk
  exact ((inv_of_reachable h).map_to_list _ (mapGet_mem hk)).2

theorem claim_C10_witness : (⟨1, 2, 2⟩ : CacheValue Nat Nat).key = 2 :=
  claim_C10_key_consistency reachable_cacheB 2 ⟨1, 2, 2⟩ (by decide)
